import Mathlib

/-!
Shallow embedding of the `locreadion` read-relocation core (src/main.rs):
CIGAR lexing and decoding (`cigar_parser`), interval merging (`merge_range`),
coverage scoring (`calc_coverage`), the read-ambiguity partition, the stable
best-match selector (`groupby_stable` + `arg_max` + `take/first`), and the
final chromosome-aware assembly and sort.  Machine `i64` values are embedded
as `Int` (the program's own comment notes all coordinates are far below the
`i64` range, and no arithmetic here can overflow 64 bits), fallible or
panicking paths are embedded as `Except Err`.
-/

/-- Fatal failure modes of the core: `parse` models a Rust panic from
`parse::<i64>().unwrap()` on a malformed CIGAR token, an out-of-bounds byte
index while scanning a token, or the `HashMap::get(...).unwrap()` on an
unknown chromosome name; `integrity` models the `assert_eq!` failure in
`calc_coverage`; `panicIdx` models the panic of `ranges[ranges.len()-1]`
on an empty vector (and the unreachable out-of-range `take` in `dedup`). -/
inductive Err where
  | parse : Err
  | integrity : Err
  | panicIdx : Err
deriving DecidableEq

/-- One joined candidate row (`chr, align_0, align_1, read, region_0,
region_1, region, cigar` in the program's column order). -/
structure Row where
  chr : String
  align0 : Int
  align1 : Int
  read : String
  region0 : Int
  region1 : Int
  region : String
  cigar : String
deriving DecidableEq

/-- Error-propagating map, the embedding of per-row computations whose Rust
counterpart panics the whole process on the first failing row. -/
def mapE {α β : Type} (f : α → Except Err β) : List α → Except Err (List β)
  | [] => Except.ok []
  | a :: l =>
    match f a with
    | Except.error e => Except.error e
    | Except.ok b =>
      match mapE f l with
      | Except.error e => Except.error e
      | Except.ok bs => Except.ok (b :: bs)

/-- The digit/operation scanner of `cigar_parser`'s `while` loop: `acc` holds
the run length accumulated so far (`none` while no digit has been read).
A non-digit with no preceding digits is the `parse::<i64>` panic on an empty
slice; digits running to the end of the string is the `cigar[j..=j]` panic. -/
def lexGo : Option Nat → List Char → Except Err (List (Nat × Char))
  | acc, [] =>
    match acc with
    | none => Except.ok []
    | some _ => Except.error Err.parse
  | acc, c :: cs =>
    if c.isDigit then
      lexGo (some (10 * acc.getD 0 + (c.toNat - 48))) cs
    else
      match acc with
      | none => Except.error Err.parse
      | some n =>
        match lexGo none cs with
        | Except.ok ts => Except.ok ((n, c) :: ts)
        | Except.error e => Except.error e

/-- Tokenise a CIGAR string into `(run length, operation char)` pairs. -/
def cigar_lex (cs : List Char) : Except Err (List (Nat × Char)) :=
  lexGo none cs

/-- The interval-building loop of `cigar_parser`: state `(start, e)` is the
pair of reference cursors (`start`, `end` in the Rust source, both without
`offset`); `M`/`D` runs extend `e` and push `[start+offset, e'+offset)`,
`N` runs advance the cursor silently, every other operation is ignored.
Returns the emitted (unmerged) intervals and the final cursor `e`. -/
def cigar_loop : List (Nat × Char) → Int → Int → Int → List (Int × Int) × Int
  | [], _, _, e => ([], e)
  | (n, op) :: ts, offset, start, e =>
    if op = 'M' ∨ op = 'D' then
      let rest := cigar_loop ts offset (e + (n : Int)) (e + (n : Int))
      ((start + offset, e + (n : Int) + offset) :: rest.1, rest.2)
    else if op = 'N' then
      cigar_loop ts offset (e + (n : Int)) (e + (n : Int))
    else
      cigar_loop ts offset start e

/-- The merging loop of `merge_range` after the running interval has been
seeded with the first input interval `(start, e)`. -/
def merge_go : Int → Int → List (Int × Int) → List (Int × Int)
  | start, e, [] => [(start, e)]
  | start, e, (s, e2) :: rest =>
    if s ≤ e then merge_go start (max e e2) rest
    else (start, e) :: merge_go s e2 rest

/-- `merge_range` from the source: single-pass merge of intervals whose start
is ≤ the running interval's end. -/
def merge_range : List (Int × Int) → List (Int × Int)
  | [] => []
  | (s, e) :: rest => merge_go s e rest

/-- `cigar_parser` from the source (renamed): lex the CIGAR, run the
interval-building loop with the alignment start as offset, and merge. -/
def cigar_decode (cigar : String) (offset : Int) : Except Err (List (Int × Int)) :=
  match cigar_lex cigar.data with
  | Except.error e => Except.error e
  | Except.ok ts => Except.ok (merge_range (cigar_loop ts offset 0 0).1)

/-- `calc_coverage(a, b, c, d, cigar)` from the source: decode with
`offset = a`, panic on an empty decoded list (`ranges[ranges.len()-1]`),
assert the last merged end equals `b`, then sum the per-interval clipped
overlaps with the region `[c, d)`. -/
def calc_coverage (a b c d : Int) (cigar : String) : Except Err Int :=
  match cigar_decode cigar a with
  | Except.error e => Except.error e
  | Except.ok ranges =>
    match ranges.getLast? with
    | none => Except.error Err.panicIdx
    | some p =>
      if p.2 = b then
        Except.ok ((ranges.map (fun r =>
          if max r.1 c < min r.2 d then min r.2 d - max r.1 c else 0)).sum)
      else Except.error Err.integrity

/-- Number of input rows carrying a given read id. -/
def countRead (rows : List Row) (r : String) : Nat :=
  (rows.filter (fun x => x.read == r)).length

/-- `unique(subset=[read], keep=None)`: the rows whose read id occurs exactly
once in the whole input. -/
def uniqRows (rows : List Row) : List Row :=
  rows.filter (fun x => countRead rows x.read == 1)

/-- `filter(read.is_in(uniq.read).not())`: the rows whose read id occurs more
than once (the ambiguous rows), in input order. -/
def dupRows (rows : List Row) : List Row :=
  rows.filter (fun x => !(countRead rows x.read == 1))

/-- The distinct values of a list in first-seen order (the group keys of a
stable group-by). -/
def firstSeen : List String → List String
  | [] => []
  | a :: l => a :: (firstSeen l).filter (fun b => b ≠ a)

/-- `groupby_stable([read])`: one group per distinct read id in first-seen
order, each group holding its rows in original input order. -/
def groupsOf (rows : List Row) : List (List Row) :=
  (firstSeen (rows.map Row.read)).map (fun r => rows.filter (fun x => x.read == r))

/-- The ambiguous groups fed to the best-match selector. -/
def dupGroups (rows : List Row) : List (List Row) :=
  groupsOf (dupRows rows)

/-- The per-row scoring closure of `dupcov`: coverage of the row's own
alignment against its own candidate region. -/
def rowScore (r : Row) : Except Err Int :=
  calc_coverage r.align0 r.align1 r.region0 r.region1 r.cigar

/-- Polars `arg_max` over a score column: the index of the first occurrence
of the maximal value (later values replace the best only when strictly
greater); `0` on the empty list, where polars yields null. -/
def argFirstMax : List Int → Nat
  | [] => 0
  | v :: rest =>
    match rest.get? (argFirstMax rest) with
    | none => 0
    | some w => if v < w then argFirstMax rest + 1 else 0

/-- The `dedup` selection for one ambiguous group: score every row, then
`take(cov_idx).first()` at the group's `arg_max` index. -/
def selectGroup (g : List Row) : Except Err Row :=
  match mapE rowScore g with
  | Except.error e => Except.error e
  | Except.ok scores =>
    match g.get? (argFirstMax scores) with
    | some r => Except.ok r
    | none => Except.error Err.panicIdx

/-- The whole `dedup` frame: one selected row per ambiguous group. -/
def selectAll (gs : List (List Row)) : Except Err (List Row) :=
  mapE selectGroup gs

/-- The `chr_map` built in `main`: `chr1..chr22 → 1..22`, `chrX → 97`,
`chrY → 98`, `chrM → 99`. -/
def chrPairs : List (String × Nat) :=
  ((List.range 22).map (fun i => ("chr" ++ toString (i + 1), i + 1))) ++
    [("chrX", 97), ("chrY", 98), ("chrM", 99)]

/-- `chr_map.get(name)`: the numeric rank of a chromosome name. -/
def chr_rank (c : String) : Option Nat :=
  (chrPairs.find? (fun p => p.1 == c)).map (fun p => p.2)

/-- The `with_columns` step deriving the `chr_n` sort key; an unresolvable
name is the `unwrap` panic on the map lookup. -/
def withRank (r : Row) : Except Err (Nat × Row) :=
  match chr_rank r.chr with
  | some n => Except.ok (n, r)
  | none => Except.error Err.parse

/-- One lexicographic comparison step: strictly smaller first component wins,
equal components defer to the remaining key. -/
def lexStep (x y : Int) (rest : Bool) : Bool :=
  if x < y then true else if y < x then false else rest

/-- The composite ascending sort key of `sort_by_exprs`:
`(chr_n, align_0, align_1, region_0, region_1)`, lexicographically. -/
def keyLeB (a b : Nat × Row) : Bool :=
  lexStep (a.1 : Int) (b.1 : Int)
    (lexStep a.2.align0 b.2.align0
      (lexStep a.2.align1 b.2.align1
        (lexStep a.2.region0 b.2.region0
          (decide (a.2.region1 ≤ b.2.region1)))))

/-- The sort order as a relation. -/
def rLe (a b : Nat × Row) : Prop := keyLeB a b = true

instance : DecidableRel rLe := fun a b => Bool.decEq (keyLeB a b) true

/-- The result-assembly tail of `main`: derive each row's chromosome rank,
sort by the composite key, and drop the rank (`exclude chr_n`) again. -/
def assembleE (rows : List Row) : Except Err (List Row) :=
  match mapE withRank rows with
  | Except.error e => Except.error e
  | Except.ok keyed => Except.ok ((List.insertionSort rLe keyed).map Prod.snd)

/-- The final emitted column order of the output table. -/
def emitRow (r : Row) : String × Int × Int × String × Int × Int × String × String :=
  (r.chr, r.align0, r.align1, r.read, r.region0, r.region1, r.region, r.cigar)

/-- The core pipeline from joined candidate rows to the sorted result table:
partition, select one row per ambiguous read, union with the unambiguous
rows (`concat([uniq, dedup])`), and assemble. -/
def pipeline (rows : List Row) : Except Err (List Row) :=
  match selectAll (dupGroups rows) with
  | Except.error e => Except.error e
  | Except.ok sel => assembleE (uniqRows rows ++ sel)

/-- Membership of a point in the union of a list of half-open intervals. -/
def inUnion (l : List (Int × Int)) (x : Int) : Prop :=
  ∃ p, p ∈ l ∧ p.1 ≤ x ∧ x < p.2

/-- Spec-side single-cursor CIGAR emitter, stated from §4.1 of the spec for
the refinement claim about the decoder: for `M`/`D` emit
`[cursor+offset, cursor+len+offset)` and advance, for `N` advance silently,
ignore every other operation. -/
def decodeSpec : List (Nat × Char) → Int → Int → List (Int × Int)
  | [], _, _ => []
  | (n, op) :: ts, offset, cur =>
    if op = 'M' ∨ op = 'D' then
      (cur + offset, cur + (n : Int) + offset) :: decodeSpec ts offset (cur + (n : Int))
    else if op = 'N' then
      decodeSpec ts offset (cur + (n : Int))
    else
      decodeSpec ts offset cur

/-- Unfolding a point's membership in the union of a cons list. -/
lemma inUnion_cons {a b : Int} {l : List (Int × Int)} {x : Int} :
    inUnion ((a, b) :: l) x ↔ (a ≤ x ∧ x < b) ∨ inUnion l x := by
  simp only [inUnion, List.mem_cons]
  constructor
  · rintro ⟨p, hp | hp, hx⟩
    · subst hp; exact Or.inl hx
    · exact Or.inr ⟨p, hp, hx⟩
  · rintro (hx | ⟨p, hp, hx⟩)
    · exact ⟨(a, b), Or.inl rfl, hx⟩
    · exact ⟨p, Or.inr hp, hx⟩

/-- The union of the merged intervals is the union of `[start, e)` with the
remaining input, provided the input is sorted by start and every input start
is at least `start`. -/
lemma merge_go_union (l : List (Int × Int)) :
    ∀ (start e : Int), List.Pairwise (fun a b : Int × Int => a.1 ≤ b.1) l →
      (∀ p ∈ l, start ≤ p.1) →
      ∀ x, inUnion (merge_go start e l) x ↔ (start ≤ x ∧ x < e) ∨ inUnion l x := by
  induction l with
  | nil =>
    intro start e _ _ x
    simp [merge_go, inUnion_cons, inUnion]
  | cons p rest ih =>
    obtain ⟨s, e2⟩ := p
    intro start e hsort hlb x
    have hs : start ≤ s := hlb (s, e2) (List.mem_cons_self _ _)
    have hsrest : ∀ q ∈ rest, s ≤ q.1 := by
      intro q hq
      exact (List.pairwise_cons.mp hsort).1 q hq
    have hsortrest : List.Pairwise (fun a b : Int × Int => a.1 ≤ b.1) rest :=
      (List.pairwise_cons.mp hsort).2
    by_cases hse : s ≤ e
    · have hlbrest : ∀ q ∈ rest, start ≤ q.1 := fun q hq => le_trans hs (hsrest q hq)
      have := ih start (max e e2) hsortrest hlbrest x
      simp only [merge_go, if_pos hse]
      rw [this, inUnion_cons]
      constructor
      · rintro (⟨h1, h2⟩ | h)
        · rcases lt_or_le x e with hx | hx
          · exact Or.inl ⟨h1, hx⟩
          · refine Or.inr (Or.inl ⟨le_trans hse hx, ?_⟩)
            rcases le_total e e2 with hmax | hmax
            · rw [max_eq_right hmax] at h2; omega
            · rw [max_eq_left hmax] at h2; omega
        · exact Or.inr (Or.inr h)
      · rintro (⟨h1, h2⟩ | ⟨h1, h2⟩ | h)
        · exact Or.inl ⟨h1, lt_of_lt_of_le h2 (le_max_left e e2)⟩
        · exact Or.inl ⟨le_trans hs h1, lt_of_lt_of_le h2 (le_max_right e e2)⟩
        · exact Or.inr h
    · simp only [merge_go, if_neg hse]
      rw [inUnion_cons, ih s e2 hsortrest hsrest x, inUnion_cons]

/-- Every interval produced by the merging loop starts no earlier than the
running interval's start. -/
lemma merge_go_lb (l : List (Int × Int)) :
    ∀ (start e : Int), List.Pairwise (fun a b : Int × Int => a.1 ≤ b.1) l →
      (∀ p ∈ l, start ≤ p.1) →
      ∀ q ∈ merge_go start e l, start ≤ q.1 := by
  induction l with
  | nil =>
    intro start e _ _ q hq
    simp only [merge_go, List.mem_singleton] at hq
    subst hq; exact le_refl _
  | cons p rest ih =>
    obtain ⟨s, e2⟩ := p
    intro start e hsort hlb q hq
    have hs : start ≤ s := hlb (s, e2) (List.mem_cons_self _ _)
    have hsrest : ∀ r ∈ rest, s ≤ r.1 := (List.pairwise_cons.mp hsort).1
    have hsortrest := (List.pairwise_cons.mp hsort).2
    by_cases hse : s ≤ e
    · simp only [merge_go, if_pos hse] at hq
      exact ih start (max e e2) hsortrest (fun r hr => le_trans hs (hsrest r hr)) q hq
    · simp only [merge_go, if_neg hse, List.mem_cons] at hq
      rcases hq with hq | hq
      · subst hq; exact le_refl _
      · exact le_trans hs (ih s e2 hsortrest hsrest q hq)

/-- The merged intervals are pairwise separated: each ends strictly before
the next begins (non-overlap, with adjacency already merged away). -/
lemma merge_go_pairwise (l : List (Int × Int)) :
    ∀ (start e : Int), List.Pairwise (fun a b : Int × Int => a.1 ≤ b.1) l →
      (∀ p ∈ l, start ≤ p.1) →
      List.Pairwise (fun a b : Int × Int => a.2 < b.1) (merge_go start e l) := by
  induction l with
  | nil =>
    intro start e _ _
    simp [merge_go]
  | cons p rest ih =>
    obtain ⟨s, e2⟩ := p
    intro start e hsort hlb
    have hs : start ≤ s := hlb (s, e2) (List.mem_cons_self _ _)
    have hsrest : ∀ r ∈ rest, s ≤ r.1 := (List.pairwise_cons.mp hsort).1
    have hsortrest := (List.pairwise_cons.mp hsort).2
    by_cases hse : s ≤ e
    · simp only [merge_go, if_pos hse]
      exact ih start (max e e2) hsortrest (fun r hr => le_trans hs (hsrest r hr))
    · simp only [merge_go, if_neg hse]
      refine List.pairwise_cons.mpr ⟨?_, ih s e2 hsortrest hsrest⟩
      intro q hq
      have := merge_go_lb rest s e2 hsortrest hsrest q hq
      omega

/-- Every merged interval is non-degenerate when the input intervals are. -/
lemma merge_go_pos (l : List (Int × Int)) :
    ∀ (start e : Int), (∀ p ∈ l, p.1 < p.2) → start < e →
      ∀ q ∈ merge_go start e l, q.1 < q.2 := by
  induction l with
  | nil =>
    intro start e _ hse q hq
    simp only [merge_go, List.mem_singleton] at hq
    subst hq; exact hse
  | cons p rest ih =>
    obtain ⟨s, e2⟩ := p
    intro start e hpos hse q hq
    have hpos2 : s < e2 := hpos (s, e2) (List.mem_cons_self _ _)
    have hposrest : ∀ r ∈ rest, r.1 < r.2 := fun r hr => hpos r (List.mem_cons_of_mem _ hr)
    by_cases hcond : s ≤ e
    · simp only [merge_go, if_pos hcond] at hq
      exact ih start (max e e2) hposrest (lt_of_lt_of_le hse (le_max_left e e2)) q hq
    · simp only [merge_go, if_neg hcond, List.mem_cons] at hq
      rcases hq with hq | hq
      · subst hq; exact hse
      · exact ih s e2 hposrest hpos2 q hq

/-- The emitted intervals of `cigar_loop`, run with both cursors equal,
coincide with the spec's single-cursor emitter. -/
lemma cigar_loop_fst_eq_decodeSpec :
    ∀ (ts : List (Nat × Char)) (offset cur : Int),
      (cigar_loop ts offset cur cur).1 = decodeSpec ts offset cur := by
  intro ts
  induction ts with
  | nil => intro offset cur; rfl
  | cons t ts ih =>
    obtain ⟨n, op⟩ := t
    intro offset cur
    by_cases hmd : op = 'M' ∨ op = 'D'
    · simp [cigar_loop, decodeSpec, hmd, ih]
    · by_cases hn : op = 'N' <;> simp [cigar_loop, decodeSpec, hmd, hn, ih]

/-- Every interval the spec emitter produces starts at or after the current
cursor position. -/
lemma decodeSpec_lb :
    ∀ (ts : List (Nat × Char)) (offset cur : Int) (q : Int × Int),
      q ∈ decodeSpec ts offset cur → cur + offset ≤ q.1 := by
  intro ts
  induction ts with
  | nil => intro offset cur q hq; simp [decodeSpec] at hq
  | cons t ts ih =>
    obtain ⟨n, op⟩ := t
    intro offset cur q hq
    have hn0 : (0 : Int) ≤ (n : Int) := Int.ofNat_nonneg n
    by_cases hmd : op = 'M' ∨ op = 'D'
    · simp only [decodeSpec, if_pos hmd, List.mem_cons] at hq
      rcases hq with hq | hq
      · subst hq; exact le_refl _
      · have := ih offset (cur + (n : Int)) q hq
        omega
    · by_cases hn : op = 'N'
      · simp only [decodeSpec, if_neg hmd, if_pos hn] at hq
        have := ih offset (cur + (n : Int)) q hq
        omega
      · simp only [decodeSpec, if_neg hmd, if_neg hn] at hq
        exact ih offset cur q hq

/-- The spec emitter's intervals have non-decreasing starts. -/
lemma decodeSpec_sorted :
    ∀ (ts : List (Nat × Char)) (offset cur : Int),
      List.Pairwise (fun a b : Int × Int => a.1 ≤ b.1) (decodeSpec ts offset cur) := by
  intro ts
  induction ts with
  | nil => intro offset cur; simp [decodeSpec]
  | cons t ts ih =>
    obtain ⟨n, op⟩ := t
    intro offset cur
    have hn0 : (0 : Int) ≤ (n : Int) := Int.ofNat_nonneg n
    by_cases hmd : op = 'M' ∨ op = 'D'
    · simp only [decodeSpec, if_pos hmd]
      refine List.pairwise_cons.mpr ⟨?_, ih offset (cur + (n : Int))⟩
      intro q hq
      have := decodeSpec_lb ts offset (cur + (n : Int)) q hq
      simp only
      omega
    · by_cases hn : op = 'N' <;> simp only [decodeSpec, if_neg hmd, if_pos, if_neg, hn] <;>
        first
        | exact ih offset (cur + (n : Int))
        | exact ih offset cur

/-- Total reference-length of `M` and `D` runs, as an integer. -/
def sumMD (ts : List (Nat × Char)) : Int :=
  ((ts.filter (fun t => t.2 == 'M' || t.2 == 'D')).map (fun t => (t.1 : Int))).sum

/-- Total reference-length of `N` (skip) runs, as an integer. -/
def sumN (ts : List (Nat × Char)) : Int :=
  ((ts.filter (fun t => t.2 == 'N')).map (fun t => (t.1 : Int))).sum

/-- The final reference cursor of the decoding loop advances by exactly the
`M`/`D`/`N` run lengths. -/
lemma cigar_loop_snd :
    ∀ (ts : List (Nat × Char)) (offset st e : Int),
      (cigar_loop ts offset st e).2 = e + sumMD ts + sumN ts := by
  intro ts
  induction ts with
  | nil => intro offset st e; simp [cigar_loop, sumMD, sumN]
  | cons t ts ih =>
    obtain ⟨n, op⟩ := t
    intro offset st e
    by_cases hmd : op = 'M' ∨ op = 'D'
    · have hnotN : op ≠ 'N' := by rcases hmd with h | h <;> subst h <;> decide
      rcases hmd with h | h <;> subst h <;>
        simp [cigar_loop, sumMD, sumN, ih] <;> ring
    · by_cases hn : op = 'N'
      · subst hn
        simp [cigar_loop, hmd, sumMD, sumN, ih]
        ring
      · have hM : (op == 'M' || op == 'D') = false := by
          simp only [Bool.or_eq_false_iff, beq_eq_false_iff_ne]
          exact ⟨fun h => hmd (Or.inl h), fun h => hmd (Or.inr h)⟩
        have hN : (op == 'N') = false := beq_eq_false_iff_ne.mpr hn
        simp [cigar_loop, hmd, hn, sumMD, sumN, ih, hM, hN]

/-- A CIGAR with no `M` and no `D` run emits no intervals. -/
lemma cigar_loop_noMD :
    ∀ (ts : List (Nat × Char)) (offset st e : Int),
      (∀ t ∈ ts, t.2 ≠ 'M' ∧ t.2 ≠ 'D') → (cigar_loop ts offset st e).1 = [] := by
  intro ts
  induction ts with
  | nil => intro offset st e _; rfl
  | cons t ts ih =>
    obtain ⟨n, op⟩ := t
    intro offset st e h
    have hop := h (n, op) (List.mem_cons_self _ _)
    have hmd : ¬(op = 'M' ∨ op = 'D') := by
      rintro (hc | hc) <;> [exact hop.1 hc; exact hop.2 hc]
    have hrest : ∀ t ∈ ts, t.2 ≠ 'M' ∧ t.2 ≠ 'D' :=
      fun t ht => h t (List.mem_cons_of_mem _ ht)
    by_cases hn : op = 'N' <;> simp [cigar_loop, hmd, hn, ih _ _ _ hrest]

/-- Claim C4: for every non-empty interval sequence given to the merger under its
input contract (non-decreasing starts, as guaranteed by the decoder's
emission order, and non-degenerate intervals), `merge_range` produces
pairwise non-overlapping intervals (each ends strictly before the next
starts), sorted strictly ascending by start, with the same point-set union
as the input; and the loop absorbs an interval into the running interval
exactly when its start is ≤ the running interval's end. -/
theorem merger_correct (s e : Int) (rest : List (Int × Int))
    (hsort : List.Pairwise (fun a b : Int × Int => a.1 ≤ b.1) ((s, e) :: rest))
    (hpos : ∀ p ∈ (s, e) :: rest, p.1 < p.2) :
    List.Pairwise (fun a b : Int × Int => a.2 < b.1) (merge_range ((s, e) :: rest)) ∧
    List.Pairwise (fun a b : Int × Int => a.1 < b.1) (merge_range ((s, e) :: rest)) ∧
    (∀ x : Int, inUnion (merge_range ((s, e) :: rest)) x ↔ inUnion ((s, e) :: rest) x) ∧
    (∀ (st en s2 e2 : Int) (l : List (Int × Int)),
      merge_go st en ((s2, e2) :: l) =
        if s2 ≤ en then merge_go st (max en e2) l else (st, en) :: merge_go s2 e2 l) := by
  have hsrest : ∀ p ∈ rest, s ≤ p.1 := (List.pairwise_cons.mp hsort).1
  have hsortrest := (List.pairwise_cons.mp hsort).2
  have hmr : merge_range ((s, e) :: rest) = merge_go s e rest := rfl
  have hsep := merge_go_pairwise rest s e hsortrest hsrest
  have hposout := merge_go_pos rest s e
    (fun p hp => hpos p (List.mem_cons_of_mem _ hp)) (hpos (s, e) (List.mem_cons_self _ _))
  refine ⟨hmr ▸ hsep, ?_, ?_, ?_⟩
  · rw [hmr]
    rw [List.pairwise_iff_get] at hsep ⊢
    intro i j hij
    have h1 := hsep i j hij
    have h2 := hposout ((merge_go s e rest).get i) (List.get_mem (merge_go s e rest) i.1 i.2)
    exact lt_trans h2 h1
  · intro x
    rw [hmr, merge_go_union rest s e hsortrest hsrest x, inUnion_cons]
  · intro st en s2 e2 l
    rfl

/-- Witness for `merger_correct` at the Scenario-B intervals `(0,5), (8,13)`. -/
theorem merger_correct_witness :
    List.Pairwise (fun a b : Int × Int => a.2 < b.1) (merge_range [((0 : Int), (5 : Int)), (8, 13)]) ∧
    List.Pairwise (fun a b : Int × Int => a.1 < b.1) (merge_range [((0 : Int), (5 : Int)), (8, 13)]) ∧
    (∀ x : Int, inUnion (merge_range [((0 : Int), (5 : Int)), (8, 13)]) x ↔
      inUnion [((0 : Int), (5 : Int)), (8, 13)] x) ∧
    (∀ (st en s2 e2 : Int) (l : List (Int × Int)),
      merge_go st en ((s2, e2) :: l) =
        if s2 ≤ en then merge_go st (max en e2) l else (st, en) :: merge_go s2 e2 l) :=
  merger_correct 0 5 [(8, 13)]
    (by simp [List.pairwise_cons])
    (by intro p hp; simp [List.mem_cons] at hp; rcases hp with h | h <;> subst h <;> decide)

/-- Claim C3: for a CIGAR string accepted by the tokenizer, the decoding loop's
emitted intervals refine the spec's single-cursor description — one interval
`[cursor+offset, cursor'+offset)` per `M`/`D` run, a silent cursor advance
per `N` run, nothing for any other operation — and the emitted intervals
have non-decreasing starts. -/
theorem decoder_emission (s : String) (ts : List (Nat × Char)) (offset : Int)
    (h : cigar_lex s.data = Except.ok ts) :
    (cigar_loop ts offset 0 0).1 = decodeSpec ts offset 0 ∧
    List.Pairwise (fun a b : Int × Int => a.1 ≤ b.1) ((cigar_loop ts offset 0 0).1) := by
  refine ⟨cigar_loop_fst_eq_decodeSpec ts offset 0, ?_⟩
  rw [cigar_loop_fst_eq_decodeSpec ts offset 0]
  exact decodeSpec_sorted ts offset 0

/-- Witness for `decoder_emission` on the Scenario-B CIGAR `5M3N5M`. -/
theorem decoder_emission_witness :
    cigar_lex "5M3N5M".data = Except.ok [(5, 'M'), (3, 'N'), (5, 'M')] ∧
    ((cigar_loop [(5, 'M'), (3, 'N'), (5, 'M')] 0 0 0).1 =
      decodeSpec [(5, 'M'), (3, 'N'), (5, 'M')] 0 0 ∧
     List.Pairwise (fun a b : Int × Int => a.1 ≤ b.1)
       ((cigar_loop [(5, 'M'), (3, 'N'), (5, 'M')] 0 0 0).1)) :=
  ⟨rfl, decoder_emission "5M3N5M" [(5, 'M'), (3, 'N'), (5, 'M')] 0 rfl⟩

/-- Claim C9: for a CIGAR string over `{M, D, N, I, S}` with positive run lengths,
the sum of the `M`/`D` run lengths plus the `N` run lengths plus the offset
equals the decoder's terminal reference coordinate (final cursor + offset). -/
theorem decoder_terminal (s : String) (ts : List (Nat × Char)) (offset : Int)
    (h : cigar_lex s.data = Except.ok ts)
    (hops : ∀ t ∈ ts, t.2 = 'M' ∨ t.2 = 'D' ∨ t.2 = 'N' ∨ t.2 = 'I' ∨ t.2 = 'S')
    (hpos : ∀ t ∈ ts, 0 < t.1) :
    sumMD ts + sumN ts + offset = (cigar_loop ts offset 0 0).2 + offset := by
  have := cigar_loop_snd ts offset 0 0
  omega

/-- Witness for `decoder_terminal` on `5M3N5M` at offset 7. -/
theorem decoder_terminal_witness :
    cigar_lex "5M3N5M".data = Except.ok [(5, 'M'), (3, 'N'), (5, 'M')] ∧
    sumMD [(5, 'M'), (3, 'N'), (5, 'M')] + sumN [(5, 'M'), (3, 'N'), (5, 'M')] + 7 =
      (cigar_loop [(5, 'M'), (3, 'N'), (5, 'M')] 7 0 0).2 + 7 :=
  ⟨rfl, decoder_terminal "5M3N5M" [(5, 'M'), (3, 'N'), (5, 'M')] 7 rfl
    (by decide) (by decide)⟩

/-- Reduction of `calc_coverage` on a successful run: decoded intervals
known, integrity check passing. -/
lemma calc_coverage_eq (a b c d : Int) (cigar : String)
    (ranges : List (Int × Int)) (p : Int × Int)
    (hdec : cigar_decode cigar a = Except.ok ranges)
    (hlast : ranges.getLast? = some p)
    (hb : p.2 = b) :
    calc_coverage a b c d cigar =
      Except.ok ((ranges.map (fun r =>
        if max r.1 c < min r.2 d then min r.2 d - max r.1 c else 0)).sum) := by
  simp only [calc_coverage, hdec, hlast, hb, if_true]

/-- Claim C2: whenever the decoded merged intervals are non-empty and satisfy the
integrity precondition (last end = `b`), `calc_coverage` returns exactly the
sum over the merged intervals of `max 0 (min end d − max start c)`, and that
value is ≥ 0. -/
theorem coverage_formula (a b c d : Int) (cigar : String)
    (ranges : List (Int × Int)) (p : Int × Int)
    (hdec : cigar_decode cigar a = Except.ok ranges)
    (hlast : ranges.getLast? = some p)
    (hb : p.2 = b) :
    calc_coverage a b c d cigar =
      Except.ok ((ranges.map (fun r => max 0 (min r.2 d - max r.1 c))).sum) ∧
    0 ≤ ((ranges.map (fun r => max 0 (min r.2 d - max r.1 c))).sum) := by
  constructor
  · rw [calc_coverage_eq a b c d cigar ranges p hdec hlast hb]
    have hmap : (ranges.map (fun r =>
        if max r.1 c < min r.2 d then min r.2 d - max r.1 c else 0)) =
        (ranges.map (fun r => max 0 (min r.2 d - max r.1 c))) := by
      apply List.map_congr_left
      intro r _
      by_cases hcmp : max r.1 c < min r.2 d
      · rw [if_pos hcmp]
        exact (max_eq_right (sub_nonneg.mpr hcmp.le)).symm
      · rw [if_neg hcmp]
        exact (max_eq_left (sub_nonpos.mpr (le_of_not_lt hcmp))).symm
    rw [hmap]
  · apply List.sum_nonneg
    intro x hx
    simp only [List.mem_map] at hx
    obtain ⟨r, _, hr⟩ := hx
    subst hr
    exact le_max_left 0 _

/-- Witness for `coverage_formula` at Scenario A: `10M` at offset 100 against
region `[100, 110)` scores 10. -/
theorem coverage_formula_witness :
    cigar_decode "10M" 100 = Except.ok [(100, 110)] ∧
    ([((100 : Int), (110 : Int))].getLast? = some (100, 110)) ∧
    (calc_coverage 100 110 100 110 "10M" =
      Except.ok (([((100 : Int), (110 : Int))].map
        (fun r => max 0 (min r.2 110 - max r.1 100))).sum) ∧
     0 ≤ (([((100 : Int), (110 : Int))].map
        (fun r => max 0 (min r.2 110 - max r.1 100))).sum)) :=
  ⟨rfl, rfl, coverage_formula 100 110 100 110 "10M" [(100, 110)] (100, 110) rfl rfl rfl⟩

/-- Claim C7: when the decoded merged intervals are non-empty, `calc_coverage`
fails with the fatal `integrity` error exactly when the last merged end
disagrees with the reported alignment end `b`; on agreement it returns a
coverage value and raises no error. -/
theorem coverage_integrity (a b c d : Int) (cigar : String)
    (ranges : List (Int × Int)) (p : Int × Int)
    (hdec : cigar_decode cigar a = Except.ok ranges)
    (hlast : ranges.getLast? = some p) :
    (p.2 ≠ b → calc_coverage a b c d cigar = Except.error Err.integrity) ∧
    (p.2 = b → ∃ v, calc_coverage a b c d cigar = Except.ok v) := by
  constructor
  · intro hne
    simp only [calc_coverage, hdec, hlast, if_neg hne]
  · intro heq
    exact ⟨_, calc_coverage_eq a b c d cigar ranges p hdec hlast heq⟩

/-- Witness for `coverage_integrity`: `10M` at offset 0 decodes to `[(0,10)]`
while the reported end is 5, so coverage fails with `integrity`. -/
theorem coverage_integrity_witness :
    cigar_decode "10M" 0 = Except.ok [(0, 10)] ∧
    ([((0 : Int), (10 : Int))].getLast? = some (0, 10)) ∧
    (((10 : Int) ≠ 5 → calc_coverage 0 5 0 10 "10M" = Except.error Err.integrity) ∧
     ((10 : Int) = 5 → ∃ v, calc_coverage 0 5 0 10 "10M" = Except.ok v)) :=
  ⟨rfl, rfl, coverage_integrity 0 5 0 10 "10M" [(0, 10)] (0, 10) rfl rfl⟩

/-- Claim C10: a well-formed CIGAR with no `M` and no `D` run decodes to an empty
interval list, and `calc_coverage` then hits the `ranges[ranges.len()-1]`
panic on the empty vector instead of returning 0 or a structured error. -/
theorem coverage_empty_panic (s : String) (ts : List (Nat × Char)) (a b c d : Int)
    (h : cigar_lex s.data = Except.ok ts)
    (hnoMD : ∀ t ∈ ts, t.2 ≠ 'M' ∧ t.2 ≠ 'D') :
    cigar_decode s a = Except.ok [] ∧
    calc_coverage a b c d s = Except.error Err.panicIdx := by
  have hdec : cigar_decode s a = Except.ok [] := by
    simp [cigar_decode, h, cigar_loop_noMD ts a 0 0 hnoMD, merge_range]
  exact ⟨hdec, by simp [calc_coverage, hdec]⟩

/-- Witness for `coverage_empty_panic` on the pure-skip CIGAR `5N`. -/
theorem coverage_empty_panic_witness :
    cigar_lex "5N".data = Except.ok [(5, 'N')] ∧
    (cigar_decode "5N" 0 = Except.ok [] ∧
     calc_coverage 0 5 0 5 "5N" = Except.error Err.panicIdx) :=
  ⟨rfl, coverage_empty_panic "5N" [(5, 'N')] 0 5 0 5 rfl (by decide)⟩

/-- Every row counts itself, so a row's read id occurs at least once. -/
lemma countRead_pos (rows : List Row) : ∀ x ∈ rows, 1 ≤ countRead rows x.read := by
  intro x hx
  have hmem : x ∈ rows.filter (fun y => y.read == x.read) :=
    List.mem_filter.mpr ⟨hx, by simp⟩
  exact List.length_pos_of_mem hmem

/-- Claim C5: the partition into unambiguous rows (read count = 1) and ambiguous
rows (read count ≥ 2) is total and disjoint: together the two parts are a
permutation of the input (no row created, dropped, or mutated), every input
row lands in exactly the part its read count dictates, and within each
read-id group the surviving part carries exactly the group's rows in their
original input order while the other part carries none of them. -/
theorem partition_classification (rows : List Row) :
    (uniqRows rows ++ dupRows rows).Perm rows ∧
    (∀ x ∈ rows,
      (x ∈ uniqRows rows ↔ countRead rows x.read = 1) ∧
      (x ∈ dupRows rows ↔ 2 ≤ countRead rows x.read)) ∧
    (∀ r : String, countRead rows r = 1 →
      (uniqRows rows).filter (fun x => x.read == r) = rows.filter (fun x => x.read == r) ∧
      (dupRows rows).filter (fun x => x.read == r) = []) ∧
    (∀ r : String, 2 ≤ countRead rows r →
      (dupRows rows).filter (fun x => x.read == r) = rows.filter (fun x => x.read == r) ∧
      (uniqRows rows).filter (fun x => x.read == r) = []) := by
  refine ⟨List.filter_append_perm _ rows, ?_, ?_, ?_⟩
  · intro x hx
    have hpos := countRead_pos rows x hx
    constructor
    · rw [uniqRows, List.mem_filter]
      simp [hx]
    · rw [dupRows, List.mem_filter]
      simp only [hx, true_and, Bool.not_eq_true', beq_eq_false_iff_ne]
      omega
  · intro r hr
    constructor
    · rw [uniqRows, List.filter_filter]
      apply List.filter_congr
      intro x _
      by_cases hxr : x.read = r
      · subst hxr
        have h1 : countRead rows x.read = 1 := hr
        simp [h1]
      · simp [hxr]
    · rw [dupRows, List.filter_filter, List.filter_eq_nil_iff]
      intro x _
      by_cases hxr : x.read = r
      · subst hxr
        have h1 : countRead rows x.read = 1 := hr
        simp [h1]
      · simp [hxr]
  · intro r hr
    constructor
    · rw [dupRows, List.filter_filter]
      apply List.filter_congr
      intro x _
      by_cases hxr : x.read = r
      · subst hxr
        have h2 : countRead rows x.read ≠ 1 := by omega
        simp [h2]
      · simp [hxr]
    · rw [uniqRows, List.filter_filter, List.filter_eq_nil_iff]
      intro x _
      by_cases hxr : x.read = r
      · subst hxr
        have h2 : countRead rows x.read ≠ 1 := by omega
        simp [h2]
      · simp [hxr]

/-- Witness for `partition_classification`: one unambiguous read `u1` and
one ambiguous read `amb` with two rows. -/
theorem partition_classification_witness :
    (2 ≤ countRead
      [⟨"chr1", 100, 110, "u1", 100, 110, "gA", "10M"⟩,
       ⟨"chr1", 0, 13, "amb", 0, 5, "gB", "5M3N5M"⟩,
       ⟨"chr1", 0, 13, "amb", 8, 13, "gC", "5M3N5M"⟩] "amb") ∧
    ((dupRows
      [⟨"chr1", 100, 110, "u1", 100, 110, "gA", "10M"⟩,
       ⟨"chr1", 0, 13, "amb", 0, 5, "gB", "5M3N5M"⟩,
       ⟨"chr1", 0, 13, "amb", 8, 13, "gC", "5M3N5M"⟩]).filter (fun x => x.read == "amb") =
     ([⟨"chr1", 100, 110, "u1", 100, 110, "gA", "10M"⟩,
       ⟨"chr1", 0, 13, "amb", 0, 5, "gB", "5M3N5M"⟩,
       ⟨"chr1", 0, 13, "amb", 8, 13, "gC", "5M3N5M"⟩] : List Row).filter
         (fun x => x.read == "amb") ∧
     (uniqRows
      [⟨"chr1", 100, 110, "u1", 100, 110, "gA", "10M"⟩,
       ⟨"chr1", 0, 13, "amb", 0, 5, "gB", "5M3N5M"⟩,
       ⟨"chr1", 0, 13, "amb", 8, 13, "gC", "5M3N5M"⟩]).filter (fun x => x.read == "amb") = []) :=
  ⟨by decide,
   (partition_classification
      [⟨"chr1", 100, 110, "u1", 100, 110, "gA", "10M"⟩,
       ⟨"chr1", 0, 13, "amb", 0, 5, "gB", "5M3N5M"⟩,
       ⟨"chr1", 0, 13, "amb", 8, 13, "gC", "5M3N5M"⟩]).2.2.2 "amb" (by decide)⟩

/-- Inversion of a successful `mapE` on a cons cell. -/
lemma mapE_cons_ok {α β : Type} {f : α → Except Err β} {a : α} {l : List α}
    {out : List β} (h : mapE f (a :: l) = Except.ok out) :
    ∃ b bs, f a = Except.ok b ∧ mapE f l = Except.ok bs ∧ out = b :: bs := by
  unfold mapE at h
  cases hfa : f a with
  | error e => rw [hfa] at h; simp at h
  | ok b =>
    rw [hfa] at h
    cases hml : mapE f l with
    | error e => rw [hml] at h; simp at h
    | ok bs =>
      rw [hml] at h
      simp only [Except.ok.injEq] at h
      exact ⟨b, bs, rfl, rfl, h.symm⟩

/-- A successful `mapE` preserves length. -/
lemma mapE_ok_length {α β : Type} {f : α → Except Err β} :
    ∀ {l : List α} {out : List β}, mapE f l = Except.ok out → out.length = l.length := by
  intro l
  induction l with
  | nil => intro out h; simp only [mapE, Except.ok.injEq] at h; subst h; rfl
  | cons a l ih =>
    intro out h
    obtain ⟨b, bs, _, hml, hout⟩ := mapE_cons_ok h
    subst hout
    simp [ih hml]

/-- A successful `mapE` maps index-wise. -/
lemma mapE_ok_get {α β : Type} {f : α → Except Err β} :
    ∀ {l : List α} {out : List β}, mapE f l = Except.ok out →
      ∀ (j : Nat) (a : α), l.get? j = some a →
        ∃ b, out.get? j = some b ∧ f a = Except.ok b := by
  intro l
  induction l with
  | nil => intro out _ j a ha; simp at ha
  | cons x l ih =>
    intro out h j a ha
    obtain ⟨b, bs, hfx, hml, hout⟩ := mapE_cons_ok h
    subst hout
    cases j with
    | zero =>
      simp only [List.get?] at ha
      cases ha
      exact ⟨b, rfl, hfx⟩
    | succ n =>
      simp only [List.get?] at ha ⊢
      exact ih hml n a ha

/-- Every element of a successfully mapped list succeeds individually. -/
lemma mapE_ok_mem {α β : Type} {f : α → Except Err β} :
    ∀ {l : List α} {out : List β}, mapE f l = Except.ok out →
      ∀ a ∈ l, ∃ b, f a = Except.ok b := by
  intro l
  induction l with
  | nil => intro out _ a ha; simp at ha
  | cons x l ih =>
    intro out h a ha
    obtain ⟨b, bs, hfx, hml, _⟩ := mapE_cons_ok h
    rcases List.mem_cons.mp ha with rfl | ha
    · exact ⟨b, hfx⟩
    · exact ih hml a ha

/-- Every output element of a successful `mapE` comes from some input. -/
lemma mapE_ok_mem_right {α β : Type} {f : α → Except Err β} :
    ∀ {l : List α} {out : List β}, mapE f l = Except.ok out →
      ∀ b ∈ out, ∃ a ∈ l, f a = Except.ok b := by
  intro l
  induction l with
  | nil =>
    intro out h b hb
    simp only [mapE, Except.ok.injEq] at h
    subst h
    simp at hb
  | cons x l ih =>
    intro out h b hb
    obtain ⟨b0, bs, hfx, hml, hout⟩ := mapE_cons_ok h
    subst hout
    rcases List.mem_cons.mp hb with rfl | hb
    · exact ⟨x, List.mem_cons_self _ _, hfx⟩
    · obtain ⟨a, ha, hfa⟩ := ih hml b hb
      exact ⟨a, List.mem_cons_of_mem _ ha, hfa⟩

/-- `argFirstMax` picks a maximal value, and every strictly earlier entry is
strictly smaller (first occurrence of the maximum). -/
lemma argFirstMax_spec : ∀ (l : List Int), l ≠ [] →
    argFirstMax l < l.length ∧
    ∃ m, l.get? (argFirstMax l) = some m ∧
      (∀ j x, l.get? j = some x → x ≤ m) ∧
      (∀ j x, j < argFirstMax l → l.get? j = some x → x < m) := by
  intro l
  induction l with
  | nil => intro h; exact absurd rfl h
  | cons v rest ih =>
    intro _
    rcases eq_or_ne rest [] with hrest | hrest
    · subst hrest
      refine ⟨by simp [argFirstMax], v, by simp [argFirstMax], ?_, ?_⟩
      · intro j x hx
        cases j with
        | zero => simp only [List.get?, Option.some.injEq] at hx; subst hx; exact le_refl v
        | succ n => simp [List.get?] at hx
      · intro j x hj hx
        simp [argFirstMax] at hj
    · obtain ⟨hlen, m', hget, hle, hlt⟩ := ih hrest
      have hget2 : rest[argFirstMax rest]? = some m' := by
        rw [← List.get?_eq_getElem?]
        exact hget
      have harg : argFirstMax (v :: rest) =
          if v < m' then argFirstMax rest + 1 else 0 := by
        simp [argFirstMax, hget, hget2]
      by_cases hvm : v < m'
      · rw [harg, if_pos hvm]
        refine ⟨by simpa using Nat.succ_lt_succ hlen, m', by simpa using hget, ?_, ?_⟩
        · intro j x hx
          cases j with
          | zero =>
            simp only [List.get?, Option.some.injEq] at hx
            subst hx
            exact le_of_lt hvm
          | succ n => exact hle n x (by simpa using hx)
        · intro j x hj hx
          cases j with
          | zero =>
            simp only [List.get?, Option.some.injEq] at hx
            subst hx
            exact hvm
          | succ n => exact hlt n x (Nat.lt_of_succ_lt_succ hj) (by simpa using hx)
      · rw [harg, if_neg hvm]
        refine ⟨Nat.succ_pos _, v, rfl, ?_, ?_⟩
        · intro j x hx
          cases j with
          | zero =>
            simp only [List.get?, Option.some.injEq] at hx
            subst hx
            exact le_refl v
          | succ n => exact le_trans (hle n x (by simpa using hx)) (le_of_not_lt hvm)
        · intro j x hj hx
          exact absurd hj (Nat.not_lt_zero j)

/-- Anything occurring in a list occurs among its first-seen keys. -/
lemma mem_firstSeen : ∀ (l : List String) (a : String), a ∈ l → a ∈ firstSeen l := by
  intro l
  induction l with
  | nil => intro a ha; simp at ha
  | cons x l ih =>
    intro a ha
    rcases List.mem_cons.mp ha with rfl | ha
    · exact List.mem_cons_self _ _
    · by_cases hax : a = x
      · subst hax; exact List.mem_cons_self _ _
      · refine List.mem_cons_of_mem _ (List.mem_filter.mpr ⟨ih a ha, by simp [hax]⟩)

/-- The first-seen keys are pairwise distinct. -/
lemma firstSeen_nodup : ∀ (l : List String), (firstSeen l).Nodup := by
  intro l
  induction l with
  | nil => simp [firstSeen]
  | cons a l ih =>
    simp only [firstSeen]
    refine List.nodup_cons.mpr ⟨?_, ih.filter _⟩
    intro hmem
    have := (List.mem_filter.mp hmem).2
    simp at this

/-- Inversion of a successful per-group selection. -/
lemma selectGroup_ok {g : List Row} {r : Row} (h : selectGroup g = Except.ok r) :
    ∃ scores, mapE rowScore g = Except.ok scores ∧
      g.get? (argFirstMax scores) = some r := by
  unfold selectGroup at h
  split at h
  · simp at h
  · rename_i scores hsc
    split at h
    · rename_i r' hget
      simp only [Except.ok.injEq] at h
      subst h
      exact ⟨scores, hsc, hget⟩
    · simp at h

/-- Claim C1: a successful best-match selection yields exactly one row per
ambiguous group (one per distinct read id, groups in first-seen order, keys
pairwise distinct), and the row chosen from each group is the one at the
first index attaining the maximal coverage score: every score is ≤ the
chosen one and every strictly earlier score is strictly smaller. -/
theorem selector_stable_argmax (rows : List Row) (sel : List Row)
    (h : selectAll (dupGroups rows) = Except.ok sel) :
    sel.length = (dupGroups rows).length ∧
    (firstSeen ((dupRows rows).map Row.read)).Nodup ∧
    (∀ (k : Nat) (g : List Row), (dupGroups rows).get? k = some g →
      ∃ rid scores r,
        (firstSeen ((dupRows rows).map Row.read)).get? k = some rid ∧
        (∀ x ∈ g, x.read = rid) ∧
        mapE rowScore g = Except.ok scores ∧
        sel.get? k = some r ∧
        g.get? (argFirstMax scores) = some r ∧
        (∃ m, scores.get? (argFirstMax scores) = some m ∧
          (∀ j x, scores.get? j = some x → x ≤ m) ∧
          (∀ j x, j < argFirstMax scores → scores.get? j = some x → x < m))) := by
  refine ⟨mapE_ok_length h, firstSeen_nodup _, ?_⟩
  intro k g hkg
  have hmap : (dupGroups rows).get? k =
      ((firstSeen ((dupRows rows).map Row.read)).get? k).map
        (fun rid => (dupRows rows).filter (fun x => x.read == rid)) :=
    List.get?_map _ _ _
  rw [hkg] at hmap
  cases hfs : (firstSeen ((dupRows rows).map Row.read)).get? k with
  | none => rw [hfs] at hmap; simp at hmap
  | some rid =>
    rw [hfs] at hmap
    simp only [Option.map_some', Option.some.injEq] at hmap
    obtain ⟨r, hselk, hsg⟩ := mapE_ok_get h k g hkg
    obtain ⟨scores, hscores, hpick⟩ := selectGroup_ok hsg
    have hglen : 0 < g.length := by
      by_contra hlen
      have : g = [] := List.eq_nil_of_length_eq_zero (by omega)
      subst this
      simp at hpick
    have hscne : scores ≠ [] := by
      have := mapE_ok_length hscores
      intro hemp
      rw [hemp] at this
      simp at this
      omega
    obtain ⟨_, m, hm, hmax, hstrict⟩ := argFirstMax_spec scores hscne
    refine ⟨rid, scores, r, rfl, ?_, hscores, hselk, hpick, m, hm, hmax, hstrict⟩
    intro x hx
    rw [hmap] at hx
    have := (List.mem_filter.mp hx).2
    simpa using this

/-- Witness for `selector_stable_argmax` at Scenario B: two candidates with
tied scores 5 and 5; the first-occurrence row (region `gB`) is selected. -/
theorem selector_stable_argmax_witness :
    selectAll (dupGroups
      [⟨"chr1", 0, 13, "amb", 0, 5, "gB", "5M3N5M"⟩,
       ⟨"chr1", 0, 13, "amb", 8, 13, "gC", "5M3N5M"⟩]) =
      Except.ok [⟨"chr1", 0, 13, "amb", 0, 5, "gB", "5M3N5M"⟩] ∧
    ([(⟨"chr1", 0, 13, "amb", 0, 5, "gB", "5M3N5M"⟩ : Row)].length =
      (dupGroups
        [⟨"chr1", 0, 13, "amb", 0, 5, "gB", "5M3N5M"⟩,
         ⟨"chr1", 0, 13, "amb", 8, 13, "gC", "5M3N5M"⟩]).length) :=
  ⟨rfl,
   (selector_stable_argmax
      [⟨"chr1", 0, 13, "amb", 0, 5, "gB", "5M3N5M"⟩,
       ⟨"chr1", 0, 13, "amb", 8, 13, "gC", "5M3N5M"⟩]
      [⟨"chr1", 0, 13, "amb", 0, 5, "gB", "5M3N5M"⟩] rfl).1⟩

/-- A lexicographic step is total given totality of the remaining key. -/
lemma lexStep_total (x y : Int) (r1 r2 : Bool) (h : r1 = true ∨ r2 = true) :
    lexStep x y r1 = true ∨ lexStep y x r2 = true := by
  rcases lt_trichotomy x y with hxy | hxy | hxy
  · left; simp [lexStep, hxy]
  · subst hxy; simpa [lexStep] using h
  · right; simp [lexStep, hxy]

/-- A lexicographic step is transitive given transitivity of the remaining
key. -/
lemma lexStep_trans (x y z : Int) (r1 r2 r3 : Bool)
    (hr : r1 = true → r2 = true → r3 = true)
    (h1 : lexStep x y r1 = true) (h2 : lexStep y z r2 = true) :
    lexStep x z r3 = true := by
  unfold lexStep at h1 h2 ⊢
  by_cases hxy : x < y
  · by_cases hyz : y < z
    · have hxz : x < z := lt_trans hxy hyz
      simp [hxz]
    · by_cases hzy : z < y
      · rw [if_neg hyz, if_pos hzy] at h2
        exact absurd h2 (by simp)
      · have heq : y = z := le_antisymm (le_of_not_lt hzy) (le_of_not_lt hyz)
        have hxz : x < z := heq ▸ hxy
        simp [hxz]
  · by_cases hyx : y < x
    · rw [if_neg hxy, if_pos hyx] at h1
      exact absurd h1 (by simp)
    · have heq : x = y := le_antisymm (le_of_not_lt hyx) (le_of_not_lt hxy)
      subst heq
      rw [if_neg hxy, if_neg hxy] at h1
      by_cases hxz : x < z
      · simp [hxz]
      · by_cases hzx : z < x
        · rw [if_neg hxz, if_pos hzx] at h2
          exact absurd h2 (by simp)
        · rw [if_neg hxz, if_neg hzx] at h2 ⊢
          exact hr h1 h2

instance : IsTotal (Nat × Row) rLe := by
  refine ⟨fun a b => ?_⟩
  unfold rLe keyLeB
  apply lexStep_total
  apply lexStep_total
  apply lexStep_total
  apply lexStep_total
  rcases le_total a.2.region1 b.2.region1 with h | h
  · left; simpa using h
  · right; simpa using h

instance : IsTrans (Nat × Row) rLe := by
  refine ⟨fun a b c h1 h2 => ?_⟩
  unfold rLe keyLeB at h1 h2 ⊢
  refine lexStep_trans _ _ _ _ _ _ ?_ h1 h2
  intro h1' h2'
  refine lexStep_trans _ _ _ _ _ _ ?_ h1' h2'
  intro h1'' h2''
  refine lexStep_trans _ _ _ _ _ _ ?_ h1'' h2''
  intro h1''' h2'''
  refine lexStep_trans _ _ _ _ _ _ ?_ h1''' h2'''
  intro ha hb
  simp only [decide_eq_true_eq] at ha hb ⊢
  exact le_trans ha hb

/-- Inversion of a successful chromosome-rank derivation. -/
lemma withRank_ok {r : Row} {p : Nat × Row} (h : withRank r = Except.ok p) :
    chr_rank r.chr = some p.1 ∧ p.2 = r := by
  unfold withRank at h
  split at h
  · rename_i n hn
    simp only [Except.ok.injEq] at h
    subst h
    exact ⟨hn, rfl⟩
  · simp at h

/-- Deriving ranks then dropping them restores the original rows. -/
lemma mapE_withRank_snd :
    ∀ {rows : List Row} {keyed : List (Nat × Row)},
      mapE withRank rows = Except.ok keyed → keyed.map Prod.snd = rows := by
  intro rows
  induction rows with
  | nil => intro keyed h; simp only [mapE, Except.ok.injEq] at h; subst h; rfl
  | cons r rows ih =>
    intro keyed h
    obtain ⟨p, ps, hf, hm, hout⟩ := mapE_cons_ok h
    subst hout
    simp [(withRank_ok hf).2, ih hm]

/-- Inversion of a successful assembly. -/
lemma assembleE_ok {rows out : List Row} (h : assembleE rows = Except.ok out) :
    ∃ keyed, mapE withRank rows = Except.ok keyed ∧
      out = (List.insertionSort rLe keyed).map Prod.snd := by
  unfold assembleE at h
  split at h
  · simp at h
  · rename_i keyed hk
    simp only [Except.ok.injEq] at h
    exact ⟨keyed, hk, h.symm⟩

/-- Claim C6: a successful assembly permutes the result rows (the derived rank is
dropped again, nothing else changes), orders them ascending by the composite
key (chromosome rank, align_0, align_1, region_0, region_1), emits columns
in the order chromosome, align_0, align_1, read, region_0, region_1, region,
cigar, and the rank table maps chr1..chr22 to 1..22, chrX to 97, chrY to 98
and chrM to 99. -/
theorem assembler_output (rows out : List Row)
    (h : assembleE rows = Except.ok out) :
    out.Perm rows ∧
    List.Pairwise (fun r1 r2 : Row => ∀ n1 n2 : Nat,
      chr_rank r1.chr = some n1 → chr_rank r2.chr = some n2 →
        rLe (n1, r1) (n2, r2)) out ∧
    (∀ r ∈ out, emitRow r =
      (r.chr, r.align0, r.align1, r.read, r.region0, r.region1, r.region, r.cigar)) ∧
    (∀ i : Nat, i < 23 → 1 ≤ i → chr_rank ("chr" ++ toString i) = some i) ∧
    chr_rank "chrX" = some 97 ∧ chr_rank "chrY" = some 98 ∧ chr_rank "chrM" = some 99 := by
  obtain ⟨keyed, hk, hout⟩ := assembleE_ok h
  subst hout
  have hperm : (List.insertionSort rLe keyed).Perm keyed :=
    List.perm_insertionSort rLe keyed
  refine ⟨?_, ?_, fun r _ => rfl, by decide, by decide, by decide, by decide⟩
  · have := hperm.map Prod.snd
    rw [mapE_withRank_snd hk] at this
    exact this
  · have hsorted : List.Pairwise rLe (List.insertionSort rLe keyed) :=
      List.sorted_insertionSort rLe keyed
    have hmem : ∀ q ∈ List.insertionSort rLe keyed, chr_rank q.2.chr = some q.1 := by
      intro q hq
      obtain ⟨a, _, hfa⟩ := mapE_ok_mem_right hk q (hperm.mem_iff.mp hq)
      have hw := withRank_ok hfa
      rw [hw.2]
      exact hw.1
    rw [List.pairwise_map]
    refine List.Pairwise.imp_of_mem ?_ hsorted
    intro a b ha hb hr n1 n2 hn1 hn2
    have ha1 : n1 = a.1 := (Option.some.inj ((hmem a ha).symm.trans hn1)).symm
    have hb1 : n2 = b.1 := (Option.some.inj ((hmem b hb).symm.trans hn2)).symm
    subst ha1
    subst hb1
    simpa using hr

/-- Witness for `assembler_output`: two rows arrive in reverse chromosome
order and come out sorted. -/
theorem assembler_output_witness :
    assembleE [⟨"chr2", 0, 1, "r2", 0, 1, "g2", "1M"⟩,
               ⟨"chr1", 5, 6, "r1", 5, 6, "g1", "1M"⟩] =
      Except.ok [⟨"chr1", 5, 6, "r1", 5, 6, "g1", "1M"⟩,
                 ⟨"chr2", 0, 1, "r2", 0, 1, "g2", "1M"⟩] ∧
    ([⟨"chr1", 5, 6, "r1", 5, 6, "g1", "1M"⟩,
      ⟨"chr2", 0, 1, "r2", 0, 1, "g2", "1M"⟩] : List Row).Perm
      [⟨"chr2", 0, 1, "r2", 0, 1, "g2", "1M"⟩,
       ⟨"chr1", 5, 6, "r1", 5, 6, "g1", "1M"⟩] :=
  ⟨rfl,
   (assembler_output
      [⟨"chr2", 0, 1, "r2", 0, 1, "g2", "1M"⟩, ⟨"chr1", 5, 6, "r1", 5, 6, "g1", "1M"⟩]
      [⟨"chr1", 5, 6, "r1", 5, 6, "g1", "1M"⟩, ⟨"chr2", 0, 1, "r2", 0, 1, "g2", "1M"⟩]
      rfl).1⟩

/-- Inversion of a successful pipeline run. -/
lemma pipeline_ok {rows out : List Row} (h : pipeline rows = Except.ok out) :
    ∃ sel, selectAll (dupGroups rows) = Except.ok sel ∧
      assembleE (uniqRows rows ++ sel) = Except.ok out := by
  unfold pipeline at h
  split at h
  · simp at h
  · rename_i sel hsel
    exact ⟨sel, hsel, h⟩

/-- A successfully scored row necessarily has a lexable CIGAR. -/
lemma rowScore_ok_lex {r : Row} {v : Int} (h : rowScore r = Except.ok v) :
    ∃ ts, cigar_lex r.cigar.data = Except.ok ts := by
  unfold rowScore calc_coverage at h
  split at h
  · simp at h
  · rename_i ranges hdec
    unfold cigar_decode at hdec
    split at hdec
    · simp at hdec
    · rename_i ts hts
      exact ⟨ts, hts⟩

/-- Counterexample to C8 as stated: the single-candidate row's CIGAR `Z` is
unparseable (`cigar_lex` rejects it), yet the run succeeds and emits the
row, because unambiguous rows are never scored and hence never parsed. -/
theorem pipeline_silent_malformed :
    cigar_lex "Z".data = Except.error Err.parse ∧
    pipeline [⟨"chr1", 0, 10, "r1", 0, 10, "g1", "Z"⟩] =
      Except.ok [⟨"chr1", 0, 10, "r1", 0, 10, "g1", "Z"⟩] :=
  ⟨rfl, rfl⟩

/-- Claim C8, amended: a successful run guarantees that every ambiguous row's
CIGAR tokenised successfully and every emitted row's chromosome name
resolved; contrapositively, a malformed CIGAR among the ambiguous rows, or
an unresolvable chromosome among the rows reaching the final table, aborts
the run with a fatal error and no output.  (Unambiguous rows' CIGARs and
dropped candidates' chromosomes are not checked.) -/
theorem pipeline_failfast (rows out : List Row)
    (h : pipeline rows = Except.ok out) :
    (∀ r ∈ dupRows rows, ∃ ts, cigar_lex r.cigar.data = Except.ok ts) ∧
    (∀ r ∈ out, ∃ n, chr_rank r.chr = some n) := by
  obtain ⟨sel, hsel, hasm⟩ := pipeline_ok h
  constructor
  · intro r hr
    have hread : r.read ∈ firstSeen ((dupRows rows).map Row.read) :=
      mem_firstSeen _ _ (List.mem_map_of_mem Row.read hr)
    have hgrp : ((dupRows rows).filter (fun x => x.read == r.read)) ∈ dupGroups rows :=
      List.mem_map_of_mem _ hread
    have hrg : r ∈ (dupRows rows).filter (fun x => x.read == r.read) :=
      List.mem_filter.mpr ⟨hr, by simp⟩
    obtain ⟨selr, hselg⟩ := mapE_ok_mem hsel _ hgrp
    obtain ⟨scores, hscores, _⟩ := selectGroup_ok hselg
    obtain ⟨v, hv⟩ := mapE_ok_mem hscores r hrg
    exact rowScore_ok_lex hv
  · intro r hr
    obtain ⟨keyed, hk, hout⟩ := assembleE_ok hasm
    subst hout
    obtain ⟨q, hqmem, hq2⟩ := List.mem_map.mp hr
    obtain ⟨a, _, hfa⟩ := mapE_ok_mem_right hk q
      ((List.perm_insertionSort rLe keyed).mem_iff.mp hqmem)
    have hw := withRank_ok hfa
    refine ⟨q.1, ?_⟩
    rw [← hq2, hw.2]
    exact hw.1

/-- Witness for `pipeline_failfast` on a clean single-row run. -/
theorem pipeline_failfast_witness :
    pipeline [⟨"chr1", 100, 110, "u1", 100, 110, "gA", "10M"⟩] =
      Except.ok [⟨"chr1", 100, 110, "u1", 100, 110, "gA", "10M"⟩] ∧
    (∀ r ∈ [(⟨"chr1", 100, 110, "u1", 100, 110, "gA", "10M"⟩ : Row)],
      ∃ n, chr_rank r.chr = some n) :=
  ⟨rfl,
   (pipeline_failfast [⟨"chr1", 100, 110, "u1", 100, 110, "gA", "10M"⟩]
      [⟨"chr1", 100, 110, "u1", 100, 110, "gA", "10M"⟩] rfl).2⟩
